import Mathlib

/-!
Verification of `osm_driveway_access_filter` (src/src/main.rs), a pipeline that
selects OSM ways tagged `service=driveway` + `access=private` edited by an
allow-listed contributor, removes ways touching a `barrier`-tagged node, and
emits the surviving ways together with their referenced nodes.

Shallow embedding notes:
  * The `BTreeMap<OsmId, OsmObj>` produced by `get_objs_and_deps` is embedded
    as a `List OsmObj` in iteration order; `get_objs_and_deps` always keys an
    object by its own id, so the key is recoverable as `OsmObj.id`.
  * `HashSet` values are embedded as lists used only through membership;
    insertion (`hs_insert`) skips duplicates like `HashSet::insert`.
  * Latitudes/longitudes are stored by osmpbfreader as decimicro-degree
    integers (`decimicro_lat : i32`); `Node::lat()` scales by 1e-7, a strictly
    monotone map, so the order comparisons in `get_bounds` are embedded on the
    integer values.  The `f64` infinities initialising the min/max accumulators
    are embedded as `Option Int` with `none` standing for the not-yet-updated
    infinity (a finite value always compares past an infinity, exactly as the
    `none` branch always takes the new value).
  * Rust panics (`expect`) are embedded as `Option` results, `none` being the
    panic branch.
-/

namespace OsmFilter

/-- Node identifier (`NodeId`, an `i64` in the source). -/
abbrev NodeId := Int

/-- Discriminated entity identifier (`OsmId`). -/
inductive OsmId where
  | node (i : Int)
  | way (i : Int)
  | relation (i : Int)
deriving DecidableEq

/-- Tag mapping: ordered key/value pairs with unique keys (`Tags`). -/
abbrev Tags := List (String × String)

/-- `Tags::contains(k, v)`: the value stored at key `k` is exactly `v`. -/
def tags_contains (t : Tags) (k v : String) : Bool :=
  match t.lookup k with
  | some w => w == v
  | none => false

/-- `Tags::contains_key(k)`: some value is stored at key `k`. -/
def contains_key (t : Tags) (k : String) : Bool :=
  (t.lookup k).isSome

/-- OSM node (`Node`): id, decimicro-degree coordinates, optional contributor
name, tag mapping.  Metadata fields not read by any claim are omitted. -/
structure Node where
  id : NodeId
  decimicroLat : Int
  decimicroLon : Int
  user : Option String
  tags : Tags
deriving DecidableEq

/-- OSM way (`Way`): id, optional contributor name, tag mapping, ordered node
id sequence. -/
structure Way where
  id : Int
  user : Option String
  tags : Tags
  nodes : List NodeId
deriving DecidableEq

/-- One relation member (`Ref`): target id and role string. -/
structure RelRef where
  member : OsmId
  role : String
deriving DecidableEq

/-- OSM relation (`Relation`): id, optional contributor name, tag mapping,
ordered member list. -/
structure Relation where
  id : Int
  user : Option String
  tags : Tags
  refs : List RelRef
deriving DecidableEq

/-- Entity sum type (`OsmObj`). -/
inductive OsmObj where
  | node (n : Node)
  | way (w : Way)
  | relation (r : Relation)
deriving DecidableEq

/-- `OsmObj::id()`. -/
def OsmObj.id : OsmObj → OsmId
  | .node n => .node n.id
  | .way w => .way w.id
  | .relation r => .relation r.id

/-- `OsmObj::is_way()`. -/
def OsmObj.isWay : OsmObj → Bool
  | .way _ => true
  | _ => false

/-- `OsmObj::tags()`. -/
def OsmObj.tags : OsmObj → Tags
  | .node n => n.tags
  | .way w => w.tags
  | .relation r => r.tags

/-- `OsmObj::user()`. -/
def OsmObj.user : OsmObj → Option String
  | .node n => n.user
  | .way w => w.user
  | .relation r => r.user

/-- `HashSet::insert`: add `x` unless already present. -/
def hs_insert {α : Type} [DecidableEq α] (s : List α) (x : α) : List α :=
  if x ∈ s then s else s ++ [x]

/-- `str::trim_end`: strip trailing whitespace, keep leading whitespace. -/
def trimEnd (s : String) : String :=
  String.mk ((s.data.reverse.dropWhile Char.isWhitespace).reverse)

/-- `parse_amazon_editors`: insert the trailing-trimmed form of every line of
the allow-list file into a set (lines 10-21 of main.rs).  Every line is
inserted, blank lines included. -/
def parse_amazon_editors (lines : List String) : List String :=
  lines.foldl (fun set line => hs_insert set (trimEnd line)) []

/-- The selection predicate closure passed to `get_objs_and_deps`
(lines 62-74), with the `expect("Short-circuiting broke")` panic embedded as
`none`: the final conjunct unwraps `element.user()` and asks the allow-list
for membership, and is only evaluated when all earlier conjuncts are true. -/
def is_candidate_checked (amazon : List String) (element : OsmObj) : Option Bool :=
  if element.isWay
      && tags_contains element.tags "service" "driveway"
      && tags_contains element.tags "access" "private"
      && element.user.isSome then
    match element.user with
    | some u => some (amazon.contains u)
    | none => none
  else
    some false

/-- The selection predicate's value (the panic branch, proved unreachable in
`short_circuit_safe`, defaults to `false`). -/
def is_candidate (amazon : List String) (element : OsmObj) : Bool :=
  (is_candidate_checked amazon element).getD false

/-- Second pass collecting the poison (disqualified) node ids: every node in
the expanded set whose tags contain key `barrier` (lines 76-83). -/
def poison_nodes (filtered : List OsmObj) : List NodeId :=
  filtered.foldl
    (fun acc obj =>
      match obj with
      | .node n => if contains_key n.tags "barrier" then hs_insert acc n.id else acc
      | _ => acc)
    []

/-- `poison_nodes.intersection(&way_nodes).next().is_none()`: no poison node
occurs among the way's node ids. -/
def intersection_empty (poison : List NodeId) (nodes : List NodeId) : Bool :=
  poison.all (fun p => !(nodes.contains p))

/-- The way filter (lines 85-102): keep every way whose node ids are disjoint
from the poison set. -/
def good_ways (poison : List NodeId) (filtered : List OsmObj) : List Way :=
  filtered.filterMap fun obj =>
    match obj with
    | .way w => if intersection_empty poison w.nodes then some w else none
    | _ => none

/-- The surviving node-id set (line 103): union of the node sequences of all
surviving ways (a `HashSet` in the source; membership-only). -/
def good_node_ids (poison : List NodeId) (filtered : List OsmObj) : List NodeId :=
  ((good_ways poison filtered).map Way.nodes).flatten

/-- The node re-selection pass (lines 105-118): keep every node of the
expanded set whose id is in the surviving node-id set. -/
def good_nodes (ids : List NodeId) (filtered : List OsmObj) : List Node :=
  filtered.filterMap fun obj =>
    match obj with
    | .node n => if ids.contains n.id then some n else none
    | _ => none

/-- `good_items` (line 119): surviving nodes followed by surviving ways, in
expanded-set iteration order; this is exactly the entity list serialized by
the emission loop (lines 147-167). -/
def good_items (filtered : List OsmObj) : List OsmObj :=
  let poison := poison_nodes filtered
  let ids := good_node_ids poison filtered
  (good_nodes ids filtered).map OsmObj.node ++ (good_ways poison filtered).map OsmObj.way

/-- One step of `compare_vals` (lines 23-28) on both accumulators, with `none`
standing for the initial infinities: returns the updated (min, max). -/
def compare_vals (p : Int) (minv maxv : Option Int) : Option Int × Option Int :=
  (match minv with
   | none => some p
   | some m => some (if p < m then p else m),
   match maxv with
   | none => some p
   | some m => some (if p > m then p else m))

/-- The four bounds accumulators of `get_bounds`. -/
structure Bounds where
  minlat : Option Int
  minlon : Option Int
  maxlat : Option Int
  maxlon : Option Int
deriving DecidableEq

/-- The loop body of `get_bounds` (lines 35-46): at a node, update all four
accumulators through `compare_vals`; ways and relations are skipped. -/
def bounds_step (b : Bounds) (item : OsmObj) : Bounds :=
  match item with
  | .node n =>
    let la := compare_vals n.decimicroLat b.minlat b.maxlat
    let lo := compare_vals n.decimicroLon b.minlon b.maxlon
    ⟨la.1, lo.1, la.2, lo.2⟩
  | _ => b

/-- `get_bounds` (lines 30-48): fold over the whole map, updating the four
accumulators at every node and ignoring ways and relations. -/
def get_bounds (data : List OsmObj) : Bounds :=
  data.foldl bounds_step ⟨none, none, none, none⟩

/-- The min half of `compare_vals` on one accumulator. -/
def pickMin (acc : Option Int) (p : Int) : Option Int :=
  match acc with
  | none => some p
  | some m => some (if p < m then p else m)

/-- The max half of `compare_vals` on one accumulator. -/
def pickMax (acc : Option Int) (p : Int) : Option Int :=
  match acc with
  | none => some p
  | some m => some (if p > m then p else m)

/-- Latitudes of all nodes of the data set, in iteration order. -/
def lats (data : List OsmObj) : List Int :=
  data.filterMap fun o =>
    match o with
    | .node n => some n.decimicroLat
    | _ => none

/-- Longitudes of all nodes of the data set, in iteration order. -/
def lons (data : List OsmObj) : List Int :=
  data.filterMap fun o =>
    match o with
    | .node n => some n.decimicroLon
    | _ => none

/-- The document handed to the XML writer: the bounds element's four
attributes (line 136: `get_bounds(&filtered)`, over the whole expanded set)
and the ordered entity list of the emission loop.  The writer itself is a
deterministic formatter of this value. -/
structure Document where
  bounds : Bounds
  items : List OsmObj
deriving DecidableEq

/-- The filtering, bounds and emission stages (lines 76-167) as a function of
the expanded data set, with the internal `HashSet` representations made
explicit parameters so that independence from their construction order can be
stated. -/
def run_with (poison ids : List NodeId) (filtered : List OsmObj) : Document :=
  { bounds := get_bounds filtered
    items := (good_nodes ids filtered).map OsmObj.node
              ++ (good_ways poison filtered).map OsmObj.way }

/-- The pipeline after the entity-source pass: filtering, bounds, emission. -/
def run (filtered : List OsmObj) : Document :=
  run_with (poison_nodes filtered) (good_node_ids (poison_nodes filtered) filtered) filtered

/-! ### Concrete example inputs used by witnesses and counterexamples -/

/-- A node with no tags at coordinates (0, 0). -/
def exN10 : Node := ⟨10, 0, 0, none, []⟩

/-- A `barrier`-tagged (disqualified) node at coordinates (100, 100). -/
def exN20 : Node := ⟨20, 100, 100, none, [("barrier", "gate")]⟩

/-- A candidate way referencing only the clean node `exN10`. -/
def exW1 : Way := ⟨1, some "alice", [("service", "driveway"), ("access", "private")], [10]⟩

/-- A candidate way referencing the disqualified node `exN20`. -/
def exW2 : Way := ⟨2, some "alice", [("service", "driveway"), ("access", "private")], [20]⟩

/-- A way whose node sequence references id 99, absent from the data set. -/
def exW3 : Way := ⟨3, some "alice", [("service", "driveway"), ("access", "private")], [99]⟩

/-- Expanded data set: two nodes and two ways, one way poisoned by `exN20`. -/
def exFiltered : List OsmObj :=
  [OsmObj.node exN10, OsmObj.node exN20, OsmObj.way exW1, OsmObj.way exW2]

/-- Expanded data set holding a single way with a dangling node reference. -/
def exDangling : List OsmObj := [OsmObj.way exW3]

/-! ### Helper lemmas: set membership through the embedding's list operations -/

lemma mem_hs_insert {α : Type} [DecidableEq α] (s : List α) (x y : α) :
    y ∈ hs_insert s x ↔ y ∈ s ∨ y = x := by
  unfold hs_insert
  by_cases h : x ∈ s
  · simp only [if_pos h]
    constructor
    · exact Or.inl
    · rintro (hy | rfl) <;> [exact hy; exact h]
  · simp [if_neg h]

lemma nodup_hs_insert {α : Type} [DecidableEq α] (s : List α) (x : α)
    (h : s.Nodup) : (hs_insert s x).Nodup := by
  unfold hs_insert
  by_cases hx : x ∈ s
  · simpa [if_pos hx]
  · simp [if_neg hx, List.nodup_append, h, hx]

lemma tags_contains_iff (t : Tags) (k v : String) :
    tags_contains t k v = true ↔ t.lookup k = some v := by
  unfold tags_contains
  cases h : t.lookup k with
  | none => simp
  | some w => simp only [beq_iff_eq, Option.some.injEq]

lemma contains_key_iff (t : Tags) (k : String) :
    contains_key t k = true ↔ ∃ v, t.lookup k = some v := by
  unfold contains_key
  cases h : t.lookup k <;> simp

lemma list_contains_iff {α : Type} [DecidableEq α] (l : List α) (a : α) :
    l.contains a = true ↔ a ∈ l := by
  simp [List.contains]

lemma mem_foldl_hs_insert {α β : Type} [DecidableEq α] (f : β → α)
    (l : List β) (acc : List α) (x : α) :
    x ∈ l.foldl (fun s b => hs_insert s (f b)) acc ↔ x ∈ acc ∨ ∃ b ∈ l, f b = x := by
  induction l generalizing acc with
  | nil => simp
  | cons b l ih =>
    simp only [List.foldl_cons, ih, mem_hs_insert, List.mem_cons]
    constructor
    · rintro ((hx | rfl) | ⟨c, hc, rfl⟩)
      · exact Or.inl hx
      · exact Or.inr ⟨b, Or.inl rfl, rfl⟩
      · exact Or.inr ⟨c, Or.inr hc, rfl⟩
    · rintro (hx | ⟨c, (rfl | hc), rfl⟩)
      · exact Or.inl (Or.inl hx)
      · exact Or.inl (Or.inr rfl)
      · exact Or.inr ⟨c, hc, rfl⟩

lemma mem_poison_foldl (l : List OsmObj) (acc : List NodeId) (p : NodeId) :
    p ∈ l.foldl
        (fun acc obj =>
          match obj with
          | .node n => if contains_key n.tags "barrier" then hs_insert acc n.id else acc
          | _ => acc) acc
      ↔ p ∈ acc ∨
        ∃ n : Node, OsmObj.node n ∈ l ∧ n.id = p ∧ contains_key n.tags "barrier" = true := by
  induction l generalizing acc with
  | nil => simp
  | cons obj l ih =>
    cases obj with
    | node n =>
      by_cases hb : contains_key n.tags "barrier" = true
      · simp only [List.foldl_cons, hb, if_true, ih, mem_hs_insert, List.mem_cons]
        constructor
        · rintro ((hp | rfl) | ⟨m, hm, rfl, hmb⟩)
          · exact Or.inl hp
          · exact Or.inr ⟨n, Or.inl rfl, rfl, hb⟩
          · exact Or.inr ⟨m, Or.inr hm, rfl, hmb⟩
        · rintro (hp | ⟨m, (hm | hm), rfl, hmb⟩)
          · exact Or.inl (Or.inl hp)
          · cases hm; exact Or.inl (Or.inr rfl)
          · exact Or.inr ⟨m, hm, rfl, hmb⟩
      · simp only [List.foldl_cons, hb, if_false, ih, List.mem_cons]
        constructor
        · rintro (hp | ⟨m, hm, rfl, hmb⟩)
          · exact Or.inl hp
          · exact Or.inr ⟨m, Or.inr hm, rfl, hmb⟩
        · rintro (hp | ⟨m, (hm | hm), rfl, hmb⟩)
          · exact Or.inl hp
          · cases hm; exact absurd hmb hb
          · exact Or.inr ⟨m, hm, rfl, hmb⟩
    | way w =>
      simp only [List.foldl_cons, ih, List.mem_cons]
      constructor
      · rintro (hp | ⟨m, hm, rfl, hmb⟩)
        · exact Or.inl hp
        · exact Or.inr ⟨m, Or.inr hm, rfl, hmb⟩
      · rintro (hp | ⟨m, (hm | hm), rfl, hmb⟩)
        · exact Or.inl hp
        · exact absurd hm (by simp)
        · exact Or.inr ⟨m, hm, rfl, hmb⟩
    | relation r =>
      simp only [List.foldl_cons, ih, List.mem_cons]
      constructor
      · rintro (hp | ⟨m, hm, rfl, hmb⟩)
        · exact Or.inl hp
        · exact Or.inr ⟨m, Or.inr hm, rfl, hmb⟩
      · rintro (hp | ⟨m, (hm | hm), rfl, hmb⟩)
        · exact Or.inl hp
        · exact absurd hm (by simp)
        · exact Or.inr ⟨m, hm, rfl, hmb⟩

lemma mem_poison_nodes (filtered : List OsmObj) (p : NodeId) :
    p ∈ poison_nodes filtered ↔
      ∃ n : Node, OsmObj.node n ∈ filtered ∧ n.id = p ∧
        contains_key n.tags "barrier" = true := by
  unfold poison_nodes
  rw [mem_poison_foldl]
  simp

lemma intersection_empty_iff (poison nodes : List NodeId) :
    intersection_empty poison nodes = true ↔ ∀ p ∈ poison, p ∉ nodes := by
  unfold intersection_empty
  simp [List.all_eq_true, list_contains_iff]

lemma intersection_empty_iff_right (poison nodes : List NodeId) :
    intersection_empty poison nodes = true ↔ ∀ x ∈ nodes, x ∉ poison := by
  rw [intersection_empty_iff]
  constructor
  · intro h x hx hp
    exact h x hp hx
  · intro h p hp hn
    exact h p hn hp

lemma mem_good_ways (poison : List NodeId) (filtered : List OsmObj) (w : Way) :
    w ∈ good_ways poison filtered ↔
      OsmObj.way w ∈ filtered ∧ intersection_empty poison w.nodes = true := by
  unfold good_ways
  rw [List.mem_filterMap]
  constructor
  · rintro ⟨obj, hobj, heq⟩
    cases obj with
    | node n => simp at heq
    | relation r => simp at heq
    | way v =>
      by_cases h : intersection_empty poison v.nodes = true
      · simp only [h, if_true, Option.some.injEq] at heq
        subst heq; exact ⟨hobj, h⟩
      · simp [h] at heq
  · rintro ⟨hw, h⟩
    exact ⟨OsmObj.way w, hw, by simp [h]⟩

lemma mem_good_node_ids (poison : List NodeId) (filtered : List OsmObj) (x : NodeId) :
    x ∈ good_node_ids poison filtered ↔
      ∃ w ∈ good_ways poison filtered, x ∈ w.nodes := by
  unfold good_node_ids
  simp [List.mem_flatten]

lemma mem_good_nodes (ids : List NodeId) (filtered : List OsmObj) (n : Node) :
    n ∈ good_nodes ids filtered ↔ OsmObj.node n ∈ filtered ∧ n.id ∈ ids := by
  unfold good_nodes
  rw [List.mem_filterMap]
  constructor
  · rintro ⟨obj, hobj, heq⟩
    cases obj with
    | way w => simp at heq
    | relation r => simp at heq
    | node m =>
      simp only [list_contains_iff] at heq
      by_cases h : m.id ∈ ids
      · simp only [h, if_true, Option.some.injEq] at heq
        subst heq
        exact ⟨hobj, h⟩
      · simp [h] at heq
  · rintro ⟨hn, h⟩
    exact ⟨OsmObj.node n, hn, by simp [list_contains_iff, h]⟩

lemma way_mem_good_items (filtered : List OsmObj) (w : Way) :
    OsmObj.way w ∈ good_items filtered ↔
      w ∈ good_ways (poison_nodes filtered) filtered := by
  unfold good_items
  simp only [List.mem_append, List.mem_map]
  constructor
  · rintro (⟨n, _, h⟩ | ⟨v, hv, h⟩)
    · exact absurd h (by simp)
    · obtain rfl : v = w := by injection h
      exact hv
  · intro h
    exact Or.inr ⟨w, h, rfl⟩

lemma node_mem_good_items (filtered : List OsmObj) (n : Node) :
    OsmObj.node n ∈ good_items filtered ↔
      n ∈ good_nodes (good_node_ids (poison_nodes filtered) filtered) filtered := by
  unfold good_items
  simp only [List.mem_append, List.mem_map]
  constructor
  · rintro (⟨m, hm, h⟩ | ⟨v, _, h⟩)
    · obtain rfl : m = n := by injection h
      exact hm
    · exact absurd h (by simp)
  · intro h
    exact Or.inl ⟨n, h, rfl⟩

/-! ### Helper lemmas: the bounds fold -/

lemma foldl_bounds_step (data : List OsmObj) (b : Bounds) :
    data.foldl bounds_step b =
      ⟨(lats data).foldl pickMin b.minlat,
       (lons data).foldl pickMin b.minlon,
       (lats data).foldl pickMax b.maxlat,
       (lons data).foldl pickMax b.maxlon⟩ := by
  induction data generalizing b with
  | nil => rfl
  | cons o l ih => cases o <;> exact ih _

lemma mem_lats (data : List OsmObj) (x : Int) :
    x ∈ lats data ↔ ∃ m : Node, OsmObj.node m ∈ data ∧ m.decimicroLat = x := by
  unfold lats
  rw [List.mem_filterMap]
  constructor
  · rintro ⟨o, ho, heq⟩
    cases o with
    | node m => exact ⟨m, ho, by simpa using heq⟩
    | way w => simp at heq
    | relation r => simp at heq
  · rintro ⟨m, hm, rfl⟩
    exact ⟨OsmObj.node m, hm, rfl⟩

lemma mem_lons (data : List OsmObj) (x : Int) :
    x ∈ lons data ↔ ∃ m : Node, OsmObj.node m ∈ data ∧ m.decimicroLon = x := by
  unfold lons
  rw [List.mem_filterMap]
  constructor
  · rintro ⟨o, ho, heq⟩
    cases o with
    | node m => exact ⟨m, ho, by simpa using heq⟩
    | way w => simp at heq
    | relation r => simp at heq
  · rintro ⟨m, hm, rfl⟩
    exact ⟨OsmObj.node m, hm, rfl⟩

lemma pickMin_le_acc (l : List Int) :
    ∀ (a m : Int), l.foldl pickMin (some a) = some m → m ≤ a := by
  induction l with
  | nil =>
    intro a m h
    injection h with h
    omega
  | cons p l ih =>
    intro a m h
    have hm := ih (if p < a then p else a) m h
    by_cases hpa : p < a
    · rw [if_pos hpa] at hm; omega
    · rw [if_neg hpa] at hm; omega

lemma pickMin_some (l : List Int) : ∀ a : Int, ∃ m, l.foldl pickMin (some a) = some m := by
  induction l with
  | nil => exact fun a => ⟨a, rfl⟩
  | cons p l ih => exact fun a => ih _

lemma pickMin_le_elem (l : List Int) :
    ∀ (acc : Option Int) (x : Int), x ∈ l →
      ∀ m, l.foldl pickMin acc = some m → m ≤ x := by
  induction l with
  | nil =>
    intro _ _ hx
    cases hx
  | cons p l ih =>
    intro acc x hx m h
    rcases List.mem_cons.mp hx with rfl | hx'
    · cases acc with
      | none => exact pickMin_le_acc l x m h
      | some a =>
        have h2 := pickMin_le_acc l (if x < a then x else a) m h
        by_cases hpa : x < a
        · rw [if_pos hpa] at h2; omega
        · rw [if_neg hpa] at h2; omega
    · exact ih (pickMin acc p) x hx' m h

lemma pickMin_attained (l : List Int) :
    ∀ acc : Option Int,
      l.foldl pickMin acc = acc ∨ ∃ y ∈ l, l.foldl pickMin acc = some y := by
  induction l with
  | nil => exact fun acc => Or.inl rfl
  | cons p l ih =>
    intro acc
    rcases ih (pickMin acc p) with h | ⟨y, hy, h⟩
    · cases acc with
      | none => exact Or.inr ⟨p, List.mem_cons_self p l, h⟩
      | some a =>
        by_cases hpa : p < a
        · refine Or.inr ⟨p, List.mem_cons_self p l, ?_⟩
          rw [List.foldl_cons, h]
          simp [pickMin, hpa]
        · refine Or.inl ?_
          rw [List.foldl_cons, h]
          simp [pickMin, hpa]
    · exact Or.inr ⟨y, List.mem_cons_of_mem p hy, h⟩

lemma pickMax_ge_acc (l : List Int) :
    ∀ (a m : Int), l.foldl pickMax (some a) = some m → a ≤ m := by
  induction l with
  | nil =>
    intro a m h
    injection h with h
    omega
  | cons p l ih =>
    intro a m h
    have hm := ih (if p > a then p else a) m h
    by_cases hpa : p > a
    · rw [if_pos hpa] at hm; omega
    · rw [if_neg hpa] at hm; omega

lemma pickMax_some (l : List Int) : ∀ a : Int, ∃ m, l.foldl pickMax (some a) = some m := by
  induction l with
  | nil => exact fun a => ⟨a, rfl⟩
  | cons p l ih => exact fun a => ih _

lemma pickMax_ge_elem (l : List Int) :
    ∀ (acc : Option Int) (x : Int), x ∈ l →
      ∀ m, l.foldl pickMax acc = some m → x ≤ m := by
  induction l with
  | nil =>
    intro _ _ hx
    cases hx
  | cons p l ih =>
    intro acc x hx m h
    rcases List.mem_cons.mp hx with rfl | hx'
    · cases acc with
      | none => exact pickMax_ge_acc l x m h
      | some a =>
        have h2 := pickMax_ge_acc l (if x > a then x else a) m h
        by_cases hpa : x > a
        · rw [if_pos hpa] at h2; omega
        · rw [if_neg hpa] at h2; omega
    · exact ih (pickMax acc p) x hx' m h

lemma pickMax_attained (l : List Int) :
    ∀ acc : Option Int,
      l.foldl pickMax acc = acc ∨ ∃ y ∈ l, l.foldl pickMax acc = some y := by
  induction l with
  | nil => exact fun acc => Or.inl rfl
  | cons p l ih =>
    intro acc
    rcases ih (pickMax acc p) with h | ⟨y, hy, h⟩
    · cases acc with
      | none => exact Or.inr ⟨p, List.mem_cons_self p l, h⟩
      | some a =>
        by_cases hpa : p > a
        · refine Or.inr ⟨p, List.mem_cons_self p l, ?_⟩
          rw [List.foldl_cons, h]
          simp [pickMax, hpa]
        · refine Or.inl ?_
          rw [List.foldl_cons, h]
          simp [pickMax, hpa]
    · exact Or.inr ⟨y, List.mem_cons_of_mem p hy, h⟩

lemma pickMin_some_of_mem (l : List Int) (x : Int) (hx : x ∈ l) :
    ∃ m, l.foldl pickMin none = some m := by
  cases l with
  | nil => cases hx
  | cons p l => exact pickMin_some l p

lemma pickMax_some_of_mem (l : List Int) (x : Int) (hx : x ∈ l) :
    ∃ m, l.foldl pickMax none = some m := by
  cases l with
  | nil => cases hx
  | cons p l => exact pickMax_some l p

/-! ### Helper lemmas: independence from the internal set representations -/

lemma bool_eq_of_iff {a b : Bool} (h : a = true ↔ b = true) : a = b := by
  cases a <;> cases b <;> simp_all

lemma intersection_empty_congr (p1 p2 ns : List NodeId)
    (hp : ∀ x, x ∈ p1 ↔ x ∈ p2) :
    intersection_empty p1 ns = intersection_empty p2 ns := by
  apply bool_eq_of_iff
  rw [intersection_empty_iff, intersection_empty_iff]
  constructor
  · intro h x hx
    exact h x ((hp x).mpr hx)
  · intro h x hx
    exact h x ((hp x).mp hx)

lemma good_ways_congr (p1 p2 : List NodeId) (filtered : List OsmObj)
    (hp : ∀ x, x ∈ p1 ↔ x ∈ p2) :
    good_ways p1 filtered = good_ways p2 filtered := by
  unfold good_ways
  congr 1
  funext obj
  cases obj with
  | node n => rfl
  | way w =>
    show (if intersection_empty p1 w.nodes = true then some w else none)
        = (if intersection_empty p2 w.nodes = true then some w else none)
    rw [intersection_empty_congr p1 p2 w.nodes hp]
  | relation r => rfl

lemma good_nodes_congr (i1 i2 : List NodeId) (filtered : List OsmObj)
    (hi : ∀ x, x ∈ i1 ↔ x ∈ i2) :
    good_nodes i1 filtered = good_nodes i2 filtered := by
  unfold good_nodes
  congr 1
  funext obj
  cases obj with
  | node n =>
    have hc : i1.contains n.id = i2.contains n.id := by
      apply bool_eq_of_iff
      rw [list_contains_iff, list_contains_iff]
      exact hi n.id
    show (if i1.contains n.id = true then some n else none)
        = (if i2.contains n.id = true then some n else none)
    rw [hc]
  | way w => rfl
  | relation r => rfl

lemma nodup_foldl_hs_insert {α β : Type} [DecidableEq α] (f : β → α)
    (l : List β) (acc : List α) (h : acc.Nodup) :
    (l.foldl (fun s b => hs_insert s (f b)) acc).Nodup := by
  induction l generalizing acc with
  | nil => exact h
  | cons b l ih => exact ih _ (nodup_hs_insert _ _ h)

/-! ### Claims -/

/-- C1: a Line (way) of the expanded data set appears in the emitted entity
list iff its node-sequence ids are disjoint from the disqualified node-id set;
equivalently it is excluded iff some node id of its sequence is poisoned. -/
theorem way_in_output_iff (filtered : List OsmObj) (w : Way)
    (hw : OsmObj.way w ∈ filtered) :
    OsmObj.way w ∈ good_items filtered ↔
      ∀ p ∈ w.nodes, p ∉ poison_nodes filtered := by
  rw [way_mem_good_items, mem_good_ways, intersection_empty_iff_right]
  simp [hw]

/-- Witness for C1 at a concrete input: `exW2` is in the expanded set and the
equivalence holds for it (it is excluded: node 20 carries a `barrier` tag). -/
theorem way_in_output_iff_witness :
    OsmObj.way exW2 ∈ exFiltered ∧
      (OsmObj.way exW2 ∈ good_items exFiltered ↔
        ∀ p ∈ exW2.nodes, p ∉ poison_nodes exFiltered) :=
  ⟨by decide, way_in_output_iff exFiltered exW2 (by decide)⟩

/-- C2: a Point (node) is emitted iff it is present in the expanded data set
and its id occurs in the node sequence of some surviving way. -/
theorem point_in_output_iff (filtered : List OsmObj) (n : Node) :
    OsmObj.node n ∈ good_items filtered ↔
      (OsmObj.node n ∈ filtered ∧
        ∃ w ∈ good_ways (poison_nodes filtered) filtered, n.id ∈ w.nodes) := by
  rw [node_mem_good_items, mem_good_nodes, mem_good_node_ids]

/-- C3: closure completeness — every node id referenced by a surviving way
names a node of the final output, provided (Entity Source contract) a node
with that id is present in the expanded set. -/
theorem closure_completeness (filtered : List OsmObj) (w : Way) (p : NodeId)
    (hw : OsmObj.way w ∈ good_items filtered) (hp : p ∈ w.nodes)
    (hsrc : ∃ n : Node, OsmObj.node n ∈ filtered ∧ n.id = p) :
    ∃ n : Node, OsmObj.node n ∈ good_items filtered ∧ n.id = p := by
  obtain ⟨n, hn, rfl⟩ := hsrc
  refine ⟨n, ?_, rfl⟩
  rw [node_mem_good_items, mem_good_nodes]
  refine ⟨hn, ?_⟩
  rw [mem_good_node_ids]
  exact ⟨w, (way_mem_good_items filtered w).mp hw, hp⟩

/-- Witness for C3 at a concrete input: surviving way `exW1` references node
id 10, and a node with id 10 is indeed emitted. -/
theorem closure_completeness_witness :
    OsmObj.way exW1 ∈ good_items exFiltered ∧ (10 : Int) ∈ exW1.nodes ∧
      (∃ n : Node, OsmObj.node n ∈ exFiltered ∧ n.id = 10) ∧
      (∃ n : Node, OsmObj.node n ∈ good_items exFiltered ∧ n.id = 10) :=
  ⟨by decide, by decide, ⟨exN10, by decide, by decide⟩,
    closure_completeness exFiltered exW1 10 (by decide) (by decide)
      ⟨exN10, by decide, by decide⟩⟩

/-- C4: the selection predicate is true exactly when the entity is a way whose
tags map `service` to `driveway` and `access` to `private`, and whose recorded
contributor name exists and belongs to the allow-list. -/
theorem is_candidate_iff (amazon : List String) (e : OsmObj) :
    is_candidate amazon e = true ↔
      (e.isWay = true ∧
        e.tags.lookup "service" = some "driveway" ∧
        e.tags.lookup "access" = some "private" ∧
        ∃ u, e.user = some u ∧ u ∈ amazon) := by
  unfold is_candidate is_candidate_checked
  cases hu : e.user with
  | none => simp [hu]
  | some u =>
    split
    next hcond =>
      simp only [Bool.and_eq_true] at hcond
      obtain ⟨⟨⟨hA, hB⟩, hC⟩, -⟩ := hcond
      rw [tags_contains_iff] at hB hC
      simp only [Option.getD_some]
      constructor
      · intro hcont
        exact ⟨hA, hB, hC, u, rfl, (list_contains_iff _ _).mp hcont⟩
      · rintro ⟨-, -, -, v, hv, hmem⟩
        obtain rfl : u = v := by injection hv
        exact (list_contains_iff _ _).mpr hmem
    next hcond =>
      simp only [Option.getD_some]
      constructor
      · intro hfalse
        cases hfalse
      · rintro ⟨hA, hB, hC, v, hv, hmem⟩
        exact absurd
          (by simp [Bool.and_eq_true, hA, (tags_contains_iff _ _ _).mpr hB,
                (tags_contains_iff _ _ _).mpr hC])
          hcond

/-- C5 counterexample: `get_bounds` is called on the WHOLE expanded set
(line 136), not on the surviving nodes.  In `exFiltered` the only surviving
node is `exN10` at latitude 0, yet the emitted max-lat is 100, the latitude of
the non-surviving barrier node `exN20` — so the written bounds are not tight
over the (non-empty) surviving point set, refuting the claim. -/
theorem bounds_surviving_counterexample :
    OsmObj.node exN10 ∈ good_items exFiltered ∧
      (get_bounds exFiltered).maxlat = some 100 ∧
      ¬ ∃ m : Node, OsmObj.node m ∈ good_items exFiltered ∧ m.decimicroLat = 100 := by
  have hitems : good_items exFiltered = [OsmObj.node exN10, OsmObj.way exW1] := by decide
  refine ⟨by rw [hitems]; simp, by decide, ?_⟩
  rintro ⟨m, hm, hlat⟩
  rw [hitems] at hm
  simp only [List.mem_cons, List.not_mem_nil, or_false, OsmObj.node.injEq] at hm
  rcases hm with rfl | hm
  · exact absurd hlat (by decide)
  · cases hm

/-- C5 amended: the bounds are computed by scanning every Point of the
EXPANDED data set (surviving or not); when that set holds at least one Point,
each accumulator is a finite value, min-lat/max-lat bound every expanded
Point's latitude (symmetrically for longitude), and each of the four values
equals a coordinate of some Point of the expanded set.  In particular the
bounds still enclose every surviving Point, but tightness holds only with
respect to the expanded set. -/
theorem get_bounds_expanded_correct (data : List OsmObj) (n : Node)
    (hn : OsmObj.node n ∈ data) :
    ∃ a b c d, get_bounds data = ⟨some a, some b, some c, some d⟩ ∧
      a ≤ n.decimicroLat ∧ n.decimicroLat ≤ c ∧
      b ≤ n.decimicroLon ∧ n.decimicroLon ≤ d ∧
      (∃ m : Node, OsmObj.node m ∈ data ∧ m.decimicroLat = a) ∧
      (∃ m : Node, OsmObj.node m ∈ data ∧ m.decimicroLon = b) ∧
      (∃ m : Node, OsmObj.node m ∈ data ∧ m.decimicroLat = c) ∧
      (∃ m : Node, OsmObj.node m ∈ data ∧ m.decimicroLon = d) := by
  have hb : get_bounds data =
      ⟨(lats data).foldl pickMin none, (lons data).foldl pickMin none,
       (lats data).foldl pickMax none, (lons data).foldl pickMax none⟩ :=
    foldl_bounds_step data ⟨none, none, none, none⟩
  have hlat : n.decimicroLat ∈ lats data := (mem_lats data _).mpr ⟨n, hn, rfl⟩
  have hlon : n.decimicroLon ∈ lons data := (mem_lons data _).mpr ⟨n, hn, rfl⟩
  obtain ⟨a, ha⟩ := pickMin_some_of_mem _ _ hlat
  obtain ⟨b, hbv⟩ := pickMin_some_of_mem _ _ hlon
  obtain ⟨c, hc⟩ := pickMax_some_of_mem _ _ hlat
  obtain ⟨d, hd⟩ := pickMax_some_of_mem _ _ hlon
  refine ⟨a, b, c, d, ?_, ?_, ?_, ?_, ?_, ?_, ?_, ?_, ?_⟩
  · rw [hb, ha, hbv, hc, hd]
  · exact pickMin_le_elem _ none _ hlat a ha
  · exact pickMax_ge_elem _ none _ hlat c hc
  · exact pickMin_le_elem _ none _ hlon b hbv
  · exact pickMax_ge_elem _ none _ hlon d hd
  · rcases pickMin_attained (lats data) none with h | ⟨y, hy, h⟩
    · exact absurd (h.symm.trans ha) (by simp)
    · have hya : y = a := by injection h.symm.trans ha
      exact hya ▸ (mem_lats data y).mp hy
  · rcases pickMin_attained (lons data) none with h | ⟨y, hy, h⟩
    · exact absurd (h.symm.trans hbv) (by simp)
    · have hya : y = b := by injection h.symm.trans hbv
      exact hya ▸ (mem_lons data y).mp hy
  · rcases pickMax_attained (lats data) none with h | ⟨y, hy, h⟩
    · exact absurd (h.symm.trans hc) (by simp)
    · have hya : y = c := by injection h.symm.trans hc
      exact hya ▸ (mem_lats data y).mp hy
  · rcases pickMax_attained (lons data) none with h | ⟨y, hy, h⟩
    · exact absurd (h.symm.trans hd) (by simp)
    · have hya : y = d := by injection h.symm.trans hd
      exact hya ▸ (mem_lons data y).mp hy

/-- Witness for the amended C5 at a concrete input: the expanded set
`exFiltered` holds the node `exN10`, and the bounds conclusion holds there. -/
theorem get_bounds_expanded_correct_witness :
    OsmObj.node exN10 ∈ exFiltered ∧
      ∃ a b c d, get_bounds exFiltered = ⟨some a, some b, some c, some d⟩ ∧
        a ≤ exN10.decimicroLat ∧ exN10.decimicroLat ≤ c ∧
        b ≤ exN10.decimicroLon ∧ exN10.decimicroLon ≤ d ∧
        (∃ m : Node, OsmObj.node m ∈ exFiltered ∧ m.decimicroLat = a) ∧
        (∃ m : Node, OsmObj.node m ∈ exFiltered ∧ m.decimicroLon = b) ∧
        (∃ m : Node, OsmObj.node m ∈ exFiltered ∧ m.decimicroLat = c) ∧
        (∃ m : Node, OsmObj.node m ∈ exFiltered ∧ m.decimicroLon = d) :=
  ⟨by decide, get_bounds_expanded_correct exFiltered exN10 (by decide)⟩

/-- C6: the disqualified set holds exactly the ids of nodes of the expanded
set whose tags contain the key `barrier`, whatever the stored value. -/
theorem poison_nodes_iff (filtered : List OsmObj) (p : NodeId) :
    p ∈ poison_nodes filtered ↔
      ∃ n : Node, OsmObj.node n ∈ filtered ∧ n.id = p ∧
        ∃ v, n.tags.lookup "barrier" = some v := by
  rw [mem_poison_nodes]
  constructor
  · rintro ⟨n, hn, rfl, hb⟩
    exact ⟨n, hn, rfl, (contains_key_iff _ _).mp hb⟩
  · rintro ⟨n, hn, rfl, hb⟩
    exact ⟨n, hn, rfl, (contains_key_iff _ _).mpr hb⟩

/-- C7 counterexample: a whitespace-only line does insert the empty string
into the allow-list set, contradicting the claim that no empty string and no
entry for a whitespace-only line is ever inserted. -/
theorem parse_blank_line_counterexample :
    "" ∈ parse_amazon_editors ["alice", " "] := by decide

/-- C7 amended: the loader produces a duplicate-free set with exactly one
member per distinct trailing-trimmed line of the input — including the empty
string when a line is empty or whitespace-only. -/
theorem parse_amazon_editors_membership (lines : List String) :
    (parse_amazon_editors lines).Nodup ∧
      ∀ x, x ∈ parse_amazon_editors lines ↔ ∃ l ∈ lines, trimEnd l = x := by
  constructor
  · exact nodup_foldl_hs_insert trimEnd lines [] List.nodup_nil
  · intro x
    unfold parse_amazon_editors
    rw [mem_foldl_hs_insert]
    simp

/-- C8: a node id referenced by a way but absent from the expanded data set
contributes no node to the output: the reference is silently dropped (the
pipeline is a total function, so no crash occurs). -/
theorem dangling_ref_silent (filtered : List OsmObj) (p : NodeId)
    (habs : ∀ n : Node, OsmObj.node n ∈ filtered → n.id ≠ p) :
    ∀ n : Node, OsmObj.node n ∈ good_items filtered → n.id ≠ p := by
  intro n hn
  have h1 := (node_mem_good_items filtered n).mp hn
  have h2 := (mem_good_nodes _ _ _).mp h1
  exact habs n h2.1

/-- Witness for C8 at a concrete input: a single way referencing the absent
node id 99; no emitted node carries id 99. -/
theorem dangling_ref_silent_witness :
    (∀ n : Node, OsmObj.node n ∈ exDangling → n.id ≠ 99) ∧
      ∀ n : Node, OsmObj.node n ∈ good_items exDangling → n.id ≠ 99 := by
  have habs : ∀ n : Node, OsmObj.node n ∈ exDangling → n.id ≠ 99 := by
    intro n hn
    simp [exDangling] at hn
  exact ⟨habs, dangling_ref_silent exDangling 99 habs⟩

/-- C9: the `expect("Short-circuiting broke")` branch is unreachable — for
every allow-list and entity the checked predicate never reaches its panic
(`none`) branch, because `user().is_some()` is tested before the unwrap. -/
theorem short_circuit_safe (amazon : List String) (e : OsmObj) :
    (is_candidate_checked amazon e).isSome = true := by
  unfold is_candidate_checked
  split
  next hcond =>
    cases hu : e.user with
    | none =>
      rw [hu] at hcond
      simp at hcond
    | some u => simp [hu]
  next => simp

/-- C10: the filtering, bounds and emission stages are deterministic — their
output document (bounds plus the ordered entity list) depends only on the
expanded data set and on the membership of the internal hash sets, not on the
order in which those sets are represented, so two runs on the same input
produce identical documents. -/
theorem pipeline_deterministic (filtered : List OsmObj)
    (p1 p2 i1 i2 : List NodeId)
    (hp : ∀ x, x ∈ p1 ↔ x ∈ p2) (hi : ∀ x, x ∈ i1 ↔ x ∈ i2) :
    run_with p1 i1 filtered = run_with p2 i2 filtered := by
  unfold run_with
  rw [good_ways_congr p1 p2 filtered hp, good_nodes_congr i1 i2 filtered hi]

/-- Witness for C10 at a concrete input: two different representations of the
same poison and surviving-id sets give the same document. -/
theorem pipeline_deterministic_witness :
    run_with [20] [10] exFiltered = run_with [20, 20] [10, 10] exFiltered :=
  pipeline_deterministic exFiltered [20] [20, 20] [10] [10, 10]
    (by intro x; simp) (by intro x; simp)

end OsmFilter
